import Mathlib

/-!
Verification of the path-filtering engine of `project_dump.py`.

The development shallowly embeds the core of the program:

* `_translate_to_re_pattern` builds, from a gitignore-style pattern, the regex
  `ANCHOR ++ glob ++ (/.*)?$` where `ANCHOR` is `^` for patterns starting with
  `/` and `(?:^|\/)` otherwise.  We embed the produced regex as a structured
  `CompiledRule` (an anchoring flag plus a list of glob tokens) and give the
  backtracking match semantics of `re.search` directly (`matchHere`,
  `searchSlash`, `ruleMatchesC`).  Subject strings are taken newline-free, as
  relative paths of any ordinary file tree are: this lets the embedding read
  `$` as end-of-subject and `.*` as any run of characters, eliding Python's
  special treatment of `\n` by `$` and by the dot.
* `parse_gitignore` is embedded over the list of raw lines exactly as Python's
  file iteration yields them (each line keeps its trailing newline).
* `discover_files` walks a finite directory tree (`FSTree`).  `os.walk` is
  modelled as a top-down preorder traversal that never prunes (the source never
  mutates `dirs`); `Path.is_file()` is modelled as membership in the directory's
  file list (the check resolves relative to the process working directory, which
  is taken to be the walk root); Python's `sorted` on `Path` objects compares
  the tuple of path components, which we model with an insertion sort under the
  componentwise lexicographic order `PathLe`.
* `create_file_content_dump` is embedded over an abstract reader
  `String → ReadResult` standing for `Path.read_text` (which may raise).
-/

/-! ### Glob tokens and the pattern translator -/

/-- One emitted unit of the constructed regex, mirroring the strings the source
appends to `regex_parts`: an escaped literal character, `[^/]*`, `.*`, or
`[^/]`. -/
inductive Tok where
  | lit (c : Char)
  | starNoSlash
  | starAny
  | qmark
deriving DecidableEq

/-- The character scan of `_translate_to_re_pattern`: `*` merges with an
immediately preceding `[^/]*` into `.*` (that is how `**` is recognised),
otherwise `*` emits `[^/]*`, `?` emits `[^/]`, and any other character is an
escaped literal.  The accumulator holds the emitted tokens in reverse. -/
def globToks : List Char → List Tok → List Tok
  | [], acc => acc.reverse
  | '*' :: rest, Tok.starNoSlash :: acc => globToks rest (Tok.starAny :: acc)
  | '*' :: rest, acc => globToks rest (Tok.starNoSlash :: acc)
  | '?' :: rest, acc => globToks rest (Tok.qmark :: acc)
  | c :: rest, acc => globToks rest (Tok.lit c :: acc)

/-- Python's `pattern.strip('/')`: remove all leading and trailing slashes. -/
def stripSlashes (cs : List Char) : List Char :=
  ((cs.dropWhile (· = '/')).reverse.dropWhile (· = '/')).reverse

/-- A compiled regex `ANCHOR ++ toks ++ (/.*)?$`: `anchored = true` stands for
the anchor `^`, `anchored = false` for `(?:^|\/)`. -/
structure CompiledRule where
  anchored : Bool
  toks : List Tok
deriving DecidableEq

/-- Embedding of `_translate_to_re_pattern`: `!`-patterns yield no rule
(a warning is printed and `None` returned); otherwise the anchor is chosen by
whether the pattern starts with `/`, slashes are stripped, and the characters
are scanned into tokens.  The final `re.compile` cannot fail on this output
(every special character is escaped), so the embedding always succeeds. -/
def _translate_to_re_pattern (pattern : String) : Option CompiledRule :=
  if pattern.data.head? = some '!' then none
  else
    some (CompiledRule.mk (pattern.data.head? == some '/')
      (globToks (stripSlashes pattern.data) []))

/-! ### Match semantics of the compiled regex

`matchHere ts cs` holds iff the regex `ts ++ (/.*)?$` matches the character
list `cs` entirely: the tokens consume a prefix of `cs` and the remaining
suffix is empty or starts with `/` (the trailing `(/.*)?$` of every compiled
rule).  The `‖`-branches realise the regex engine's backtracking. -/

def matchHere : List Tok → List Char → Bool
  | [], cs => cs.isEmpty || cs.head? == some '/'
  | Tok.lit c :: ts, d :: ds => c == d && matchHere ts ds
  | Tok.lit _ :: _, [] => false
  | Tok.qmark :: ts, d :: ds => d != '/' && matchHere ts ds
  | Tok.qmark :: _, [] => false
  | Tok.starNoSlash :: ts, cs =>
      matchHere ts cs ||
        (match cs with
          | d :: ds => d != '/' && matchHere (Tok.starNoSlash :: ts) ds
          | [] => false)
  | Tok.starAny :: ts, cs =>
      matchHere ts cs ||
        (match cs with
          | _ :: ds => matchHere (Tok.starAny :: ts) ds
          | [] => false)
termination_by ts cs => (cs.length, ts.length)

/-- Matches of an unanchored rule starting strictly after some `/` of the
subject: `re.search` tries every start position, and at a position `> 0` the
alternation `(?:^|\/)` can only consume a slash. -/
def searchSlash (ts : List Tok) : List Char → Bool
  | [] => false
  | c :: rest => (c == '/' && matchHere ts rest) || searchSlash ts rest

/-- Semantics of `compiledRegex.search(path)`: an anchored rule must match from
position 0; an unanchored rule may match from position 0 or right after any
slash. -/
def ruleMatchesC (r : CompiledRule) (cs : List Char) : Bool :=
  if r.anchored then matchHere r.toks cs
  else matchHere r.toks cs || searchSlash r.toks cs

/-- `rule.search(str(path))` on a Lean `String`. -/
def ruleMatches (r : CompiledRule) (s : String) : Bool :=
  ruleMatchesC r s.data

/-- `any(p.search(path) for p in rules)`. -/
def anyMatchC (rules : List CompiledRule) (cs : List Char) : Bool :=
  rules.any fun r => ruleMatchesC r cs

/-- The rule a pattern compiles to, for stating concrete examples (`getD` is
never exercised on the patterns we use, which all translate successfully). -/
def someRule (p : String) : CompiledRule :=
  (_translate_to_re_pattern p).getD (CompiledRule.mk true [])

/-! ### The gitignore reader and the rule-set assembly of `main` -/

/-- Python's `str.strip()` (both ends, whitespace). -/
def pyStrip (s : String) : String :=
  String.mk (((s.data.dropWhile Char.isWhitespace).reverse.dropWhile
    Char.isWhitespace).reverse)

/-- Embedding of `parse_gitignore`, over the list of raw lines exactly as
`for line in f` yields them (each line keeps its trailing newline, so a blank
line in a file arrives as `"\n"`).  The source tests `not line` and
`line.startswith('#')` on the raw line, before the `strip()`. -/
def parse_gitignore (lines : List String) : List CompiledRule :=
  lines.filterMap fun line =>
    if line == "" || line.data.head? == some '#' then none
    else _translate_to_re_pattern (pyStrip line)

/-- The set comprehension of `main` building `ignore_patterns`: failed
translations stay in the set as `None`. -/
def main_ignore_patterns (ignore_items : List String) : List (Option CompiledRule) :=
  ignore_items.map _translate_to_re_pattern

/-- The set comprehension of `main` building `exclude_content_patterns`,
followed by `exclude_content_patterns.update(gitignore_patterns)` when
gitignore processing is enabled.  The gitignore rules are added to this set,
not to the ignore set. -/
def main_exclude_patterns (exclude_items : List String) (gitignore_lines : List String)
    (no_gitignore : Bool) : List (Option CompiledRule) :=
  exclude_items.map _translate_to_re_pattern ++
    (if no_gitignore then [] else (parse_gitignore gitignore_lines).map some)

/-- The successfully compiled rules of a rule set. -/
def someRules (l : List (Option CompiledRule)) : List CompiledRule :=
  l.filterMap id

/-! ### Relative paths -/

/-- The string of a non-root relative `PurePath`: segments joined by `/`
(as a character list). -/
def pathChars : List String → List Char
  | [] => []
  | [s] => s.data
  | s :: rest => s.data ++ '/' :: pathChars rest

/-- The string `discover_files` matches a visited directory against:
`str(Path(current).relative_to(root))`, which is `"."` for the root itself. -/
def dirChars (rp : List String) : List Char :=
  if rp = [] then ['.'] else pathChars rp

/-- Index of the last `.` of a name (`name.rfind('.')` when it occurs). -/
def lastDotIdx : List Char → Option Nat
  | [] => none
  | c :: cs =>
    match lastDotIdx cs with
    | some i => some (i + 1)
    | none => if c = '.' then some 0 else none

/-- `PurePath.suffix` of a file name: the part from the last dot on, provided
that dot is neither the first nor the last character; otherwise `""`. -/
def pathSuffix (name : String) : String :=
  match lastDotIdx name.data with
  | some i =>
    if 0 < i ∧ i < name.data.length - 1 then String.mk (name.data.drop i) else ""
  | none => ""

/-! ### The orders Python sorts by

`sorted(dirs + files)` sorts strings by code-point-lexicographic `<`;
`sorted(paths)` on `Path` objects sorts by `PurePath.__lt__`, which compares
the tuples of path components (not the joined strings). -/

/-- Python string `<`: lexicographic by code point. -/
def strLtB : List Char → List Char → Bool
  | [], [] => false
  | [], _ :: _ => true
  | _ :: _, [] => false
  | c1 :: cs1, c2 :: cs2 => if c1 = c2 then strLtB cs1 cs2 else decide (c1 < c2)

/-- Python tuple `<` on path components (`PurePath.__lt__`). -/
def pathLtB : List String → List String → Bool
  | _, [] => false
  | [], _ :: _ => true
  | s1 :: p1, s2 :: p2 => if s1 = s2 then pathLtB p1 p2 else strLtB s1.data s2.data

/-- Reflexive closure of `pathLtB`. -/
def pathLeB (a b : List String) : Bool := pathLtB a b || a == b

/-- The order `sorted` returns `Path` lists in. -/
def PathLe (a b : List String) : Prop := pathLeB a b = true

instance : DecidableRel PathLe := fun _ _ => inferInstanceAs (Decidable (_ = true))

/-- The order `sorted(dirs + files)` returns entry names in (`a ≤ b` as
`¬ b < a`). -/
def StrLe (a b : String) : Prop := strLtB b.data a.data = false

instance : DecidableRel StrLe := fun _ _ => inferInstanceAs (Decidable (_ = false))

/-- Python `sorted` on a list of entry-name strings. -/
def sortNames (l : List String) : List String := List.insertionSort StrLe l

/-- Python `sorted` on a list of relative paths (`Path` ordering). -/
def sortPaths (l : List (List String)) : List (List String) :=
  List.insertionSort PathLe l

/-! ### The directory tree and the walker -/

/-- A finite directory tree: subdirectories (name and subtree) in OS listing
order, plus the file names of the directory. -/
inductive FSTree where
  | node (dirs : List (String × FSTree)) (files : List String)

mutual
/-- Well-formedness of a tree as a real file system guarantees it: the names
in one directory (subdirectories and files together) are distinct. -/
def fswf : FSTree → Bool
  | FSTree.node dirs files =>
    decide ((dirs.map Prod.fst ++ files).Nodup) && fswfDirs dirs
def fswfDirs : List (String × FSTree) → Bool
  | [] => true
  | (_, child) :: rest => fswf child && fswfDirs rest
end

/-- Look up a subdirectory by name. -/
def lookupDir (nm : String) : List (String × FSTree) → Option FSTree
  | [] => none
  | (m, t) :: rest => if m = nm then some t else lookupDir nm rest

/-- The subtree at a relative path, if that directory exists. -/
def findNode : FSTree → List String → Option FSTree
  | t, [] => some t
  | FSTree.node dirs _, nm :: q =>
    match lookupDir nm dirs with
    | some child => findNode child q
    | none => none

/-- The entry at directory path `q` with name `n` exists and is a file. -/
def fileAt (t : FSTree) (q : List String) (n : String) : Prop :=
  ∃ dirs files, findNode t q = some (FSTree.node dirs files) ∧ n ∈ files

/-- The entry loop of `discover_files` over `sorted(dirs + files)`: an entry
matching the ignore set is skipped; a file entry goes to the excluded-content
list if the exclude set matches, to the included list if its suffix is a
wanted ending, and to the excluded-content list otherwise; a directory entry
is classified nowhere (`is_file()` fails on it). -/
def classifyEntries (file_endings : List String)
    (ignore_patterns exclude_content_patterns : List CompiledRule)
    (rp : List String) (files : List String) :
    List String → List (List String) × List (List String)
  | [] => ([], [])
  | item_name :: rest =>
    let out := classifyEntries file_endings ignore_patterns exclude_content_patterns
      rp files rest
    let p := rp ++ [item_name]
    if anyMatchC ignore_patterns (pathChars p) then out
    else if item_name ∈ files then
      if anyMatchC exclude_content_patterns (pathChars p) then (out.1, p :: out.2)
      else if pathSuffix item_name ∈ file_endings then (p :: out.1, out.2)
      else (out.1, p :: out.2)
    else out

mutual
/-- One `os.walk` visit in `discover_files`: if the directory's own relative
path (`"."` for the root) matches the ignore set, its entries are not
classified (`continue`); either way `os.walk` still descends into every
subdirectory, since the source never mutates `dirs`. -/
def walkDir (file_endings : List String)
    (ignore_patterns exclude_content_patterns : List CompiledRule)
    (t : FSTree) (rp : List String) : List (List String) × List (List String) :=
  match t with
  | FSTree.node dirs files =>
    let here :=
      if anyMatchC ignore_patterns (dirChars rp) then (([], []) : List (List String) × List (List String))
      else classifyEntries file_endings ignore_patterns exclude_content_patterns rp files
        (sortNames (dirs.map Prod.fst ++ files))
    let rest := walkDirs file_endings ignore_patterns exclude_content_patterns dirs rp
    (here.1 ++ rest.1, here.2 ++ rest.2)
/-- The recursive descent of `os.walk` over the subdirectories. -/
def walkDirs (file_endings : List String)
    (ignore_patterns exclude_content_patterns : List CompiledRule)
    (ds : List (String × FSTree)) (rp : List String) :
    List (List String) × List (List String) :=
  match ds with
  | [] => ([], [])
  | (nm, child) :: rest =>
    let a := walkDir file_endings ignore_patterns exclude_content_patterns child (rp ++ [nm])
    let b := walkDirs file_endings ignore_patterns exclude_content_patterns rest rp
    (a.1 ++ b.1, a.2 ++ b.2)
end

/-- Embedding of `discover_files`: walk the tree, then return
`(sorted(included_paths), sorted(excluded_content_paths))`. -/
def discover_files (root : FSTree) (file_endings : List String)
    (ignore_patterns exclude_content_patterns : List CompiledRule) :
    List (List String) × List (List String) :=
  let out := walkDir file_endings ignore_patterns exclude_content_patterns root []
  (sortPaths out.1, sortPaths out.2)

/-- The visible tree paths of `main`: `sorted(included_paths + excluded_content_paths)`. -/
def all_tree_paths (included_paths excluded_content_paths : List (List String)) :
    List (List String) :=
  sortPaths (included_paths ++ excluded_content_paths)

/-! ### The content renderer -/

/-- Outcome of `absolute_path.read_text(...)` for one file: the decoded text,
or the exception message when the read raises. -/
inductive ReadResult where
  | ok (content : String)
  | err (msg : String)

/-- The heading the renderer emits before each file:
`"\n\n\n\n--- " + title + " ---\n"`. -/
def heading (title : String) : String :=
  "\n\n\n\n--- " ++ title ++ " ---\n"

/-- The loop of `create_file_content_dump`, carrying `output_parts` in reverse:
per file, append the heading; on a successful read strip the content and, when
the stripped content is empty, return `''` for the whole batch; on a read
error append the diagnostic placeholder; finally `"\n".join(output_parts)`. -/
def dumpLoop (read_text : String → ReadResult) (output_parts : List String) :
    List String → String
  | [] => String.intercalate "\n" output_parts.reverse
  | rel_path :: rest =>
    let output_parts := heading rel_path :: output_parts
    match read_text rel_path with
    | ReadResult.ok raw =>
      let content := pyStrip raw
      if content == "" then ""
      else dumpLoop read_text (content :: output_parts) rest
    | ReadResult.err e =>
      dumpLoop read_text
        (("Error reading file " ++ rel_path ++ ": " ++ e) :: output_parts) rest

/-- Embedding of `create_file_content_dump`, over an abstract reader in place
of the file system. -/
def create_file_content_dump (read_text : String → ReadResult)
    (rel_paths : List String) : String :=
  dumpLoop read_text [] rel_paths

/-! ### Subtree coverage of the `(/.*)?$` suffix -/

theorem matchHere_append_slash (ts : List Tok) (cs ds : List Char)
    (h : matchHere ts cs = true) : matchHere ts (cs ++ '/' :: ds) = true := by
  induction ts, cs using matchHere.induct with
  | case1 cs =>
    rw [matchHere] at h
    cases cs with
    | nil => simp [matchHere]
    | cons c rest =>
      simp only [List.isEmpty_cons, Bool.false_or, List.head?_cons] at h
      simp only [List.cons_append]
      rw [matchHere]
      simp [h]
  | case2 c ts d ds ih =>
    simp only [List.cons_append]
    rw [matchHere] at h ⊢
    rcases Bool.and_eq_true_iff.mp h with ⟨h1, h2⟩
    exact Bool.and_eq_true_iff.mpr ⟨h1, ih h2⟩
  | case3 => rw [matchHere] at h; exact absurd h (by simp)
  | case4 ts d ds ih =>
    simp only [List.cons_append]
    rw [matchHere] at h ⊢
    rcases Bool.and_eq_true_iff.mp h with ⟨h1, h2⟩
    exact Bool.and_eq_true_iff.mpr ⟨h1, ih h2⟩
  | case5 => rw [matchHere] at h; exact absurd h (by simp)
  | case6 ts cs ih1 ih2 =>
    cases cs with
    | nil =>
      rw [matchHere] at h
      simp only [Bool.or_false] at h
      rw [List.nil_append, matchHere]
      exact Bool.or_eq_true_iff.mpr (Or.inl (ih1 h))
    | cons d rest =>
      simp only [List.cons_append]
      rw [matchHere] at h ⊢
      rcases Bool.or_eq_true_iff.mp h with h1 | h2
      · exact Bool.or_eq_true_iff.mpr (Or.inl (ih1 h1))
      · rcases Bool.and_eq_true_iff.mp h2 with ⟨hd, hm⟩
        exact Bool.or_eq_true_iff.mpr
          (Or.inr (Bool.and_eq_true_iff.mpr ⟨hd, ih2 hm⟩))
  | case7 ts cs ih1 ih2 =>
    cases cs with
    | nil =>
      rw [matchHere] at h
      simp only [Bool.or_false] at h
      rw [List.nil_append, matchHere]
      exact Bool.or_eq_true_iff.mpr (Or.inl (ih1 h))
    | cons d rest =>
      simp only [List.cons_append]
      rw [matchHere] at h ⊢
      rcases Bool.or_eq_true_iff.mp h with h1 | h2
      · exact Bool.or_eq_true_iff.mpr (Or.inl (ih1 h1))
      · exact Bool.or_eq_true_iff.mpr (Or.inr (ih2 h2))

theorem searchSlash_append_slash (ts : List Tok) (cs ds : List Char)
    (h : searchSlash ts cs = true) : searchSlash ts (cs ++ '/' :: ds) = true := by
  induction cs with
  | nil => simp [searchSlash] at h
  | cons c rest ih =>
    rw [searchSlash] at h
    rw [List.cons_append, searchSlash]
    rcases Bool.or_eq_true_iff.mp h with h1 | h2
    · rcases Bool.and_eq_true_iff.mp h1 with ⟨hc, hm⟩
      exact Bool.or_eq_true_iff.mpr
        (Or.inl (Bool.and_eq_true_iff.mpr ⟨hc, matchHere_append_slash ts rest ds hm⟩))
    · exact Bool.or_eq_true_iff.mpr (Or.inr (ih h2))

theorem ruleMatchesC_append_slash (r : CompiledRule) (cs ds : List Char)
    (h : ruleMatchesC r cs = true) : ruleMatchesC r (cs ++ '/' :: ds) = true := by
  rcases r with ⟨anch, ts⟩
  cases anch with
  | true =>
    simp only [ruleMatchesC, if_pos rfl] at h ⊢
    exact matchHere_append_slash _ _ _ h
  | false =>
    simp only [ruleMatchesC] at h ⊢
    simp only [Bool.false_eq_true, if_false, Bool.or_eq_true] at h ⊢
    rcases h with h1 | h2
    · exact Or.inl (matchHere_append_slash _ _ _ h1)
    · exact Or.inr (searchSlash_append_slash _ _ _ h2)

theorem anyMatchC_append_slash (rules : List CompiledRule) (cs ds : List Char)
    (h : anyMatchC rules cs = true) : anyMatchC rules (cs ++ '/' :: ds) = true := by
  rw [anyMatchC, List.any_eq_true] at h ⊢
  rcases h with ⟨r, hr, hm⟩
  exact ⟨r, hr, ruleMatchesC_append_slash r cs ds hm⟩

/-- C7: for every pattern accepted by the translator and all path strings `d`
and `s`, a compiled rule matching `d` also matches `d ++ "/" ++ s` — the
`(/.*)?$` suffix makes every rule that matches a directory cover the
directory's whole subtree. -/
theorem rule_match_covers_subtree (pat : String) (r : CompiledRule) (d s : String)
    (_htr : _translate_to_re_pattern pat = some r)
    (h : ruleMatches r d = true) :
    ruleMatches r (d ++ "/" ++ s) = true := by
  have hdata : (d ++ "/" ++ s).data = d.data ++ '/' :: s.data := by
    simp [String.data_append]
  rw [ruleMatches, hdata]
  exact ruleMatchesC_append_slash r d.data s.data h

/-- C7 witness: the rule compiled from `"build"` matches `"build"`, hence by
`rule_match_covers_subtree` it also matches `"build" ++ "/" ++ "x.py"`. -/
theorem rule_match_covers_subtree_witness :
    _translate_to_re_pattern "build" = some (someRule "build") ∧
    ruleMatches (someRule "build") "build" = true ∧
    ruleMatches (someRule "build") ("build" ++ "/" ++ "x.py") = true := by
  have h1 : _translate_to_re_pattern "build" = some (someRule "build") := rfl
  have h2 : ruleMatches (someRule "build") "build" = true := by
    have hv : someRule "build" =
        CompiledRule.mk false
          [Tok.lit 'b', Tok.lit 'u', Tok.lit 'i', Tok.lit 'l', Tok.lit 'd'] := rfl
    rw [hv, ruleMatches, ruleMatchesC]
    simp [matchHere]
  exact ⟨h1, h2, rule_match_covers_subtree "build" (someRule "build") "build" "x.py" h1 h2⟩

/-! ### Concrete pattern facts (C5, C6) -/

/-- C5 counterexample: the claim states that the compiled pattern
`docs/**/draft.md` matches `docs/draft.md`; it does not.  The translator
compiles `**` to `.*` between two literal slashes, so the compiled regex
`(?:^|\/)docs/.*/draft\.md(/.*)?$` requires a slash between `docs/` and
`draft.md` and fails on `docs/draft.md`. -/
theorem doubleStar_counterexample :
    _translate_to_re_pattern "docs/**/draft.md" = some (someRule "docs/**/draft.md") ∧
    ruleMatches (someRule "docs/**/draft.md") "docs/draft.md" = false := by
  constructor
  · rfl
  · have hv : someRule "docs/**/draft.md" =
        CompiledRule.mk false
          [Tok.lit 'd', Tok.lit 'o', Tok.lit 'c', Tok.lit 's', Tok.lit '/',
           Tok.starAny, Tok.lit '/', Tok.lit 'd', Tok.lit 'r', Tok.lit 'a',
           Tok.lit 'f', Tok.lit 't', Tok.lit '.', Tok.lit 'm', Tok.lit 'd'] := rfl
    rw [hv, ruleMatches, ruleMatchesC]
    simp [matchHere, searchSlash]

/-- C5 amended: the rule compiled from `docs/**/draft.md` matches
`docs/x/y/draft.md` but not `docs/draft.md` (the translated `**` still
requires the literal slashes around it, so at least one intervening
directory level is needed). -/
theorem doubleStar_matches :
    ruleMatches (someRule "docs/**/draft.md") "docs/x/y/draft.md" = true ∧
    ruleMatches (someRule "docs/**/draft.md") "docs/draft.md" = false := by
  have hv : someRule "docs/**/draft.md" =
      CompiledRule.mk false
        [Tok.lit 'd', Tok.lit 'o', Tok.lit 'c', Tok.lit 's', Tok.lit '/',
         Tok.starAny, Tok.lit '/', Tok.lit 'd', Tok.lit 'r', Tok.lit 'a',
         Tok.lit 'f', Tok.lit 't', Tok.lit '.', Tok.lit 'm', Tok.lit 'd'] := rfl
  constructor
  · rw [hv, ruleMatches, ruleMatchesC]
    simp [matchHere, searchSlash]
  · rw [hv, ruleMatches, ruleMatchesC]
    simp [matchHere, searchSlash]

/-- C6: the rule compiled from the root-anchored pattern `/build` matches
`build` and `build/x.py` but not `src/build`; in general a rule compiled from
a pattern beginning with `/` is anchored and matches exactly when the glob
(plus the `(/.*)?$` suffix) matches from position 0, while an unanchored rule
matches from position 0 or immediately after any `/`. -/
theorem anchored_rule_semantics :
    _translate_to_re_pattern "/build" = some (someRule "/build") ∧
    ruleMatches (someRule "/build") "build" = true ∧
    ruleMatches (someRule "/build") "build/x.py" = true ∧
    ruleMatches (someRule "/build") "src/build" = false ∧
    (∀ (pat : String) (r : CompiledRule), _translate_to_re_pattern pat = some r →
      r.anchored = (pat.data.head? == some '/')) ∧
    (∀ (r : CompiledRule) (s : String), r.anchored = true →
      ruleMatches r s = matchHere r.toks s.data) ∧
    (∀ (r : CompiledRule) (s : String), r.anchored = false →
      ruleMatches r s = (matchHere r.toks s.data || searchSlash r.toks s.data)) := by
  have hv : someRule "/build" =
      CompiledRule.mk true
        [Tok.lit 'b', Tok.lit 'u', Tok.lit 'i', Tok.lit 'l', Tok.lit 'd'] := rfl
  refine ⟨rfl, ?_, ?_, ?_, ?_, ?_, ?_⟩
  · rw [hv, ruleMatches, ruleMatchesC]; simp [matchHere]
  · rw [hv, ruleMatches, ruleMatchesC]; simp [matchHere]
  · rw [hv, ruleMatches, ruleMatchesC]; simp [matchHere]
  · intro pat r htr
    rw [_translate_to_re_pattern] at htr
    by_cases hb : pat.data.head? = some '!'
    · rw [if_pos hb] at htr; cases htr
    · rw [if_neg hb] at htr
      cases htr
      rfl
  · intro r s hr
    rw [ruleMatches, ruleMatchesC, hr]
    simp
  · intro r s hr
    rw [ruleMatches, ruleMatchesC, hr]
    simp

/-- C6 witness: the general clauses of `anchored_rule_semantics` applied at the
concrete rule compiled from `/build` and the concrete subject `src/build`. -/
theorem anchored_rule_semantics_witness :
    (someRule "/build").anchored = ("/build".data.head? == some '/') ∧
    ruleMatches (someRule "/build") "src/build" =
      matchHere (someRule "/build").toks "src/build".data := by
  constructor
  · exact anchored_rule_semantics.2.2.2.2.1 "/build" (someRule "/build")
      anchored_rule_semantics.1
  · exact anchored_rule_semantics.2.2.2.2.2.1 (someRule "/build") "src/build" rfl

/-! ### Gitignore reader facts (C8, C9) -/

/-- C8: the code comment says blank lines are skipped, but `for line in f`
yields a blank line as `"\n"`, which fails neither the `not line` test nor the
`startswith('#')` test (both run before `strip()`), so the stripped empty
string is handed to the translator and a compiled rule is produced from the
blank line: the rule list for a file holding `.venv` plus a blank line has
length 2, not 1. -/
theorem parse_gitignore_blank_line_bug :
    parse_gitignore ["\n"] = [CompiledRule.mk false []] ∧
    (parse_gitignore [".venv\n", "\n"]).length = 2 := by
  constructor <;> rfl

/-- C9: a pattern starting with `!` translates to no rule (the translator
warns and returns `None`), and the gitignore reader drops it; but `main`'s set
comprehension keeps the `None` in `ignore_patterns`, where `discover_files`
will call `.search` on it and abort with an `AttributeError`. -/
theorem negated_pattern_handling :
    _translate_to_re_pattern "!important.py" = none ∧
    parse_gitignore ["!important.py\n"] = [] ∧
    main_ignore_patterns ["!important.py"] = [none] := by
  refine ⟨rfl, rfl, rfl⟩

/-! ### Properties of the orders -/

theorem strLtB_asymm {a b : List Char} (h : strLtB a b = true) : strLtB b a = false := by
  induction a generalizing b with
  | nil =>
    cases b with
    | nil => simp [strLtB] at h
    | cons d ds => rfl
  | cons c cs ih =>
    cases b with
    | nil => simp [strLtB] at h
    | cons d ds =>
      rw [strLtB] at h
      rw [strLtB]
      by_cases hcd : c = d
      · rw [if_pos hcd] at h
        rw [if_pos hcd.symm]
        exact ih h
      · rw [if_neg hcd] at h
        have hlt : c < d := of_decide_eq_true h
        have hdc : d ≠ c := fun he => hcd he.symm
        rw [if_neg hdc]
        exact decide_eq_false (not_lt_of_gt hlt)

theorem strLtB_trans {a b c : List Char} (h1 : strLtB a b = true)
    (h2 : strLtB b c = true) : strLtB a c = true := by
  induction a generalizing b c with
  | nil =>
    cases c with
    | nil =>
      cases b with
      | nil => exact h2
      | cons y ys => simp [strLtB] at h2
    | cons z zs => rfl
  | cons x xs ih =>
    cases b with
    | nil => simp [strLtB] at h1
    | cons y ys =>
      cases c with
      | nil => simp [strLtB] at h2
      | cons z zs =>
        rw [strLtB] at h1 h2 ⊢
        by_cases hxy : x = y
        · subst hxy
          rw [if_pos rfl] at h1
          by_cases hyz : x = z
          · subst hyz
            rw [if_pos rfl] at h2 ⊢
            exact ih h1 h2
          · rw [if_neg hyz] at h2 ⊢
            exact h2
        · rw [if_neg hxy] at h1
          have hx : x < y := of_decide_eq_true h1
          by_cases hyz : y = z
          · subst hyz
            rw [if_neg hxy]
            exact decide_eq_true hx
          · rw [if_neg hyz] at h2
            have hy : y < z := of_decide_eq_true h2
            have hxz : x < z := lt_trans hx hy
            rw [if_neg (ne_of_lt hxz)]
            exact decide_eq_true hxz

theorem strLtB_total {a b : List Char} (h : a ≠ b) :
    strLtB a b = true ∨ strLtB b a = true := by
  induction a generalizing b with
  | nil =>
    cases b with
    | nil => exact absurd rfl h
    | cons y ys => exact Or.inl rfl
  | cons x xs ih =>
    cases b with
    | nil => exact Or.inr rfl
    | cons y ys =>
      rw [strLtB, strLtB]
      by_cases hxy : x = y
      · subst hxy
        rw [if_pos rfl, if_pos rfl]
        refine ih fun he => h ?_
        rw [he]
      · have hyx : y ≠ x := fun he => hxy he.symm
        rw [if_neg hxy, if_neg hyx]
        rcases lt_trichotomy x y with hlt | he | hgt
        · exact Or.inl (decide_eq_true hlt)
        · exact absurd he hxy
        · exact Or.inr (decide_eq_true hgt)

theorem pathLtB_asymm {a b : List String} (h : pathLtB a b = true) :
    pathLtB b a = false := by
  induction a generalizing b with
  | nil =>
    cases b with
    | nil => simp [pathLtB] at h
    | cons d ds => rfl
  | cons c cs ih =>
    cases b with
    | nil => simp [pathLtB] at h
    | cons d ds =>
      rw [pathLtB] at h
      rw [pathLtB]
      by_cases hcd : c = d
      · rw [if_pos hcd] at h
        rw [if_pos hcd.symm]
        exact ih h
      · rw [if_neg hcd] at h
        have hdc : d ≠ c := fun he => hcd he.symm
        rw [if_neg hdc]
        exact strLtB_asymm h

theorem pathLtB_trans {a b c : List String} (h1 : pathLtB a b = true)
    (h2 : pathLtB b c = true) : pathLtB a c = true := by
  induction a generalizing b c with
  | nil =>
    cases c with
    | nil =>
      cases b with
      | nil => exact h2
      | cons y ys => simp [pathLtB] at h2
    | cons z zs => rfl
  | cons x xs ih =>
    cases b with
    | nil => simp [pathLtB] at h1
    | cons y ys =>
      cases c with
      | nil => simp [pathLtB] at h2
      | cons z zs =>
        rw [pathLtB] at h1 h2 ⊢
        by_cases hxy : x = y
        · subst hxy
          rw [if_pos rfl] at h1
          by_cases hyz : x = z
          · subst hyz
            rw [if_pos rfl] at h2 ⊢
            exact ih h1 h2
          · rw [if_neg hyz] at h2 ⊢
            exact h2
        · rw [if_neg hxy] at h1
          by_cases hyz : y = z
          · subst hyz
            rw [if_neg hxy]
            exact h1
          · rw [if_neg hyz] at h2
            have hxz : strLtB x.data z.data = true := strLtB_trans h1 h2
            have hxzne : x ≠ z := by
              intro he
              subst he
              have h3 : strLtB x.data y.data = false := strLtB_asymm h2
              rw [h1] at h3
              cases h3
            rw [if_neg hxzne]
            exact hxz

theorem pathLtB_total {a b : List String} (h : a ≠ b) :
    pathLtB a b = true ∨ pathLtB b a = true := by
  induction a generalizing b with
  | nil =>
    cases b with
    | nil => exact absurd rfl h
    | cons y ys => exact Or.inl rfl
  | cons x xs ih =>
    cases b with
    | nil => exact Or.inr rfl
    | cons y ys =>
      rw [pathLtB, pathLtB]
      by_cases hxy : x = y
      · subst hxy
        rw [if_pos rfl, if_pos rfl]
        refine ih fun he => h ?_
        rw [he]
      · have hyx : y ≠ x := fun he => hxy he.symm
        rw [if_neg hxy, if_neg hyx]
        have hd : x.data ≠ y.data := fun he => hxy (by
          cases x
          cases y
          simp only at he
          rw [he])
        rcases strLtB_total hd with h1 | h1
        · exact Or.inl h1
        · exact Or.inr h1

theorem pathLe_total (a b : List String) : PathLe a b ∨ PathLe b a := by
  by_cases h : a = b
  · subst h
    exact Or.inl (by simp [PathLe, pathLeB])
  · rcases pathLtB_total h with h1 | h1
    · exact Or.inl (by simp [PathLe, pathLeB, h1])
    · exact Or.inr (by simp [PathLe, pathLeB, h1])

theorem pathLe_trans {a b c : List String} (h1 : PathLe a b) (h2 : PathLe b c) :
    PathLe a c := by
  rw [PathLe, pathLeB] at h1 h2 ⊢
  rcases Bool.or_eq_true_iff.mp h1 with hl1 | he1
  · rcases Bool.or_eq_true_iff.mp h2 with hl2 | he2
    · exact Bool.or_eq_true_iff.mpr (Or.inl (pathLtB_trans hl1 hl2))
    · have : b = c := by simpa using he2
      subst this
      exact Bool.or_eq_true_iff.mpr (Or.inl hl1)
  · have : a = b := by simpa using he1
    subst this
    exact h2

theorem pathLtB_of_le_ne {a b : List String} (h1 : PathLe a b) (h2 : a ≠ b) :
    pathLtB a b = true := by
  rw [PathLe, pathLeB] at h1
  rcases Bool.or_eq_true_iff.mp h1 with hl | he
  · exact hl
  · exact absurd (by simpa using he) h2

theorem sortPaths_sorted (l : List (List String)) :
    List.Sorted PathLe (sortPaths l) :=
  @List.sorted_insertionSort _ PathLe _ ⟨pathLe_total⟩
    ⟨fun _ _ _ h1 h2 => pathLe_trans h1 h2⟩ l

theorem sortPaths_perm (l : List (List String)) :
    List.Perm (sortPaths l) l :=
  List.perm_insertionSort PathLe l

theorem sortNames_perm (l : List String) : List.Perm (sortNames l) l :=
  List.perm_insertionSort StrLe l

/-! ### Facts about the entry loop -/

theorem pathChars_cons (x : String) (ys : List String) (hy : ys ≠ []) :
    pathChars (x :: ys) = x.data ++ '/' :: pathChars ys := by
  cases ys with
  | nil => exact absurd rfl hy
  | cons y ys => rfl

theorem pathChars_append (xs ys : List String) (hx : xs ≠ []) (hy : ys ≠ []) :
    pathChars (xs ++ ys) = pathChars xs ++ '/' :: pathChars ys := by
  induction xs with
  | nil => exact absurd rfl hx
  | cons x xs ih =>
    cases xs with
    | nil =>
      simp only [List.cons_append, List.nil_append]
      rw [pathChars_cons x ys hy]
      rfl
    | cons x2 xs2 =>
      have hxx : (x2 :: xs2 : List String) ≠ [] := by simp
      rw [List.cons_append, pathChars_cons x ((x2 :: xs2) ++ ys) (by simp),
        pathChars_cons x (x2 :: xs2) hxx, ih hxx]
      simp

theorem mem_classifyEntries_inc {E : List String} {I X : List CompiledRule}
    {rp files names p : List String}
    (h : p ∈ (classifyEntries E I X rp files names).1) :
    ∃ n, n ∈ names ∧ n ∈ files ∧ p = rp ++ [n] ∧
      anyMatchC I (pathChars p) = false ∧ anyMatchC X (pathChars p) = false ∧
      pathSuffix n ∈ E := by
  induction names with
  | nil => simp [classifyEntries] at h
  | cons m rest ih =>
    simp only [classifyEntries] at h
    by_cases hI : anyMatchC I (pathChars (rp ++ [m])) = true
    · rw [if_pos hI] at h
      rcases ih h with ⟨n, hn, hrest⟩
      exact ⟨n, List.mem_cons_of_mem m hn, hrest⟩
    · rw [if_neg hI] at h
      by_cases hf : m ∈ files
      · rw [if_pos hf] at h
        by_cases hX : anyMatchC X (pathChars (rp ++ [m])) = true
        · rw [if_pos hX] at h
          rcases ih h with ⟨n, hn, hrest⟩
          exact ⟨n, List.mem_cons_of_mem m hn, hrest⟩
        · rw [if_neg hX] at h
          by_cases hE : pathSuffix m ∈ E
          · rw [if_pos hE] at h
            rcases List.mem_cons.mp h with he | hm
            · subst he
              exact ⟨m, List.mem_cons_self m rest, hf, rfl,
                Bool.eq_false_iff.mpr hI, Bool.eq_false_iff.mpr hX, hE⟩
            · rcases ih hm with ⟨n, hn, hrest⟩
              exact ⟨n, List.mem_cons_of_mem m hn, hrest⟩
          · rw [if_neg hE] at h
            rcases ih h with ⟨n, hn, hrest⟩
            exact ⟨n, List.mem_cons_of_mem m hn, hrest⟩
      · rw [if_neg hf] at h
        rcases ih h with ⟨n, hn, hrest⟩
        exact ⟨n, List.mem_cons_of_mem m hn, hrest⟩

theorem mem_classifyEntries_exc {E : List String} {I X : List CompiledRule}
    {rp files names p : List String}
    (h : p ∈ (classifyEntries E I X rp files names).2) :
    ∃ n, n ∈ names ∧ n ∈ files ∧ p = rp ++ [n] ∧
      anyMatchC I (pathChars p) = false ∧
      (anyMatchC X (pathChars p) = true ∨
        (anyMatchC X (pathChars p) = false ∧ pathSuffix n ∉ E)) := by
  induction names with
  | nil => simp [classifyEntries] at h
  | cons m rest ih =>
    simp only [classifyEntries] at h
    by_cases hI : anyMatchC I (pathChars (rp ++ [m])) = true
    · rw [if_pos hI] at h
      rcases ih h with ⟨n, hn, hrest⟩
      exact ⟨n, List.mem_cons_of_mem m hn, hrest⟩
    · rw [if_neg hI] at h
      by_cases hf : m ∈ files
      · rw [if_pos hf] at h
        by_cases hX : anyMatchC X (pathChars (rp ++ [m])) = true
        · rw [if_pos hX] at h
          rcases List.mem_cons.mp h with he | hm
          · subst he
            exact ⟨m, List.mem_cons_self m rest, hf, rfl,
              Bool.eq_false_iff.mpr hI, Or.inl hX⟩
          · rcases ih hm with ⟨n, hn, hrest⟩
            exact ⟨n, List.mem_cons_of_mem m hn, hrest⟩
        · rw [if_neg hX] at h
          by_cases hE : pathSuffix m ∈ E
          · rw [if_pos hE] at h
            rcases ih h with ⟨n, hn, hrest⟩
            exact ⟨n, List.mem_cons_of_mem m hn, hrest⟩
          · rw [if_neg hE] at h
            rcases List.mem_cons.mp h with he | hm
            · subst he
              exact ⟨m, List.mem_cons_self m rest, hf, rfl,
                Bool.eq_false_iff.mpr hI, Or.inr ⟨Bool.eq_false_iff.mpr hX, hE⟩⟩
            · rcases ih hm with ⟨n, hn, hrest⟩
              exact ⟨n, List.mem_cons_of_mem m hn, hrest⟩
      · rw [if_neg hf] at h
        rcases ih h with ⟨n, hn, hrest⟩
        exact ⟨n, List.mem_cons_of_mem m hn, hrest⟩

theorem classifyEntries_mem_inc {E : List String} {I X : List CompiledRule}
    {rp files names : List String} {n : String}
    (hn : n ∈ names) (hf : n ∈ files)
    (hI : anyMatchC I (pathChars (rp ++ [n])) = false)
    (hX : anyMatchC X (pathChars (rp ++ [n])) = false)
    (hE : pathSuffix n ∈ E) :
    rp ++ [n] ∈ (classifyEntries E I X rp files names).1 := by
  induction names with
  | nil => cases hn
  | cons m rest ih =>
    simp only [classifyEntries]
    rcases List.mem_cons.mp hn with he | hm
    · subst he
      rw [if_neg (by rw [hI]; exact Bool.false_ne_true), if_pos hf,
        if_neg (by rw [hX]; exact Bool.false_ne_true), if_pos hE]
      exact List.mem_cons_self _ _
    · have hsub := ih hm
      by_cases hI2 : anyMatchC I (pathChars (rp ++ [m])) = true
      · rw [if_pos hI2]
        exact hsub
      · rw [if_neg hI2]
        by_cases hf2 : m ∈ files
        · rw [if_pos hf2]
          by_cases hX2 : anyMatchC X (pathChars (rp ++ [m])) = true
          · rw [if_pos hX2]
            exact hsub
          · rw [if_neg hX2]
            by_cases hE2 : pathSuffix m ∈ E
            · rw [if_pos hE2]
              exact List.mem_cons_of_mem _ hsub
            · rw [if_neg hE2]
              exact hsub
        · rw [if_neg hf2]
          exact hsub

theorem classifyEntries_mem_exc {E : List String} {I X : List CompiledRule}
    {rp files names : List String} {n : String}
    (hn : n ∈ names) (hf : n ∈ files)
    (hI : anyMatchC I (pathChars (rp ++ [n])) = false)
    (hcl : anyMatchC X (pathChars (rp ++ [n])) = true ∨
      (anyMatchC X (pathChars (rp ++ [n])) = false ∧ pathSuffix n ∉ E)) :
    rp ++ [n] ∈ (classifyEntries E I X rp files names).2 := by
  induction names with
  | nil => cases hn
  | cons m rest ih =>
    simp only [classifyEntries]
    rcases List.mem_cons.mp hn with he | hm
    · subst he
      rw [if_neg (by rw [hI]; exact Bool.false_ne_true), if_pos hf]
      rcases hcl with hX | ⟨hX, hE⟩
      · rw [if_pos hX]
        exact List.mem_cons_self _ _
      · rw [if_neg (by rw [hX]; exact Bool.false_ne_true), if_neg hE]
        exact List.mem_cons_self _ _
    · have hsub := ih hm
      by_cases hI2 : anyMatchC I (pathChars (rp ++ [m])) = true
      · rw [if_pos hI2]
        exact hsub
      · rw [if_neg hI2]
        by_cases hf2 : m ∈ files
        · rw [if_pos hf2]
          by_cases hX2 : anyMatchC X (pathChars (rp ++ [m])) = true
          · rw [if_pos hX2]
            exact List.mem_cons_of_mem _ hsub
          · rw [if_neg hX2]
            by_cases hE2 : pathSuffix m ∈ E
            · rw [if_pos hE2]
              exact hsub
            · rw [if_neg hE2]
              exact List.mem_cons_of_mem _ hsub
        · rw [if_neg hf2]
          exact hsub

theorem classifyEntries_nodup {E : List String} {I X : List CompiledRule}
    {rp files names : List String} (h : names.Nodup) :
    ((classifyEntries E I X rp files names).1 ++
      (classifyEntries E I X rp files names).2).Nodup := by
  induction names with
  | nil => simp [classifyEntries]
  | cons m rest ih =>
    rcases List.nodup_cons.mp h with ⟨hm, hrest⟩
    have ihr := ih hrest
    have hnotin : rp ++ [m] ∉ (classifyEntries E I X rp files rest).1 ++
        (classifyEntries E I X rp files rest).2 := by
      intro hmem
      rcases List.mem_append.mp hmem with h1 | h2
      · rcases mem_classifyEntries_inc h1 with ⟨n, hn, _, hpn, _⟩
        have : m = n := by
          have := List.append_cancel_left hpn
          simpa using this
        exact hm (this ▸ hn)
      · rcases mem_classifyEntries_exc h2 with ⟨n, hn, _, hpn, _⟩
        have : m = n := by
          have := List.append_cancel_left hpn
          simpa using this
        exact hm (this ▸ hn)
    simp only [classifyEntries]
    by_cases hI : anyMatchC I (pathChars (rp ++ [m])) = true
    · rw [if_pos hI]
      exact ihr
    · rw [if_neg hI]
      by_cases hf : m ∈ files
      · rw [if_pos hf]
        by_cases hX : anyMatchC X (pathChars (rp ++ [m])) = true
        · rw [if_pos hX]
          exact (List.nodup_middle).mpr (List.nodup_cons.mpr ⟨hnotin, ihr⟩)
        · rw [if_neg hX]
          by_cases hE : pathSuffix m ∈ E
          · rw [if_pos hE]
            exact List.nodup_cons.mpr ⟨hnotin, ihr⟩
          · rw [if_neg hE]
            exact (List.nodup_middle).mpr (List.nodup_cons.mpr ⟨hnotin, ihr⟩)
      · rw [if_neg hf]
        exact ihr

/-! ### Facts about the walk -/

theorem lookupDir_mem {nm : String} {l : List (String × FSTree)} {t : FSTree}
    (h : lookupDir nm l = some t) : (nm, t) ∈ l := by
  induction l with
  | nil => cases h
  | cons hd rest ih =>
    rcases hd with ⟨m, u⟩
    rw [lookupDir] at h
    by_cases hm : m = nm
    · rw [if_pos hm] at h
      injection h with h
      subst hm
      subst h
      exact List.mem_cons_self _ _
    · rw [if_neg hm] at h
      exact List.mem_cons_of_mem _ (ih h)

mutual
theorem mem_walkDir_inc {E : List String} {I X : List CompiledRule}
    (t : FSTree) (rp p : List String) (h : p ∈ (walkDir E I X t rp).1) :
    ∃ q n, p = rp ++ q ++ [n] ∧
      anyMatchC I (pathChars p) = false ∧ anyMatchC X (pathChars p) = false ∧
      pathSuffix n ∈ E := by
  match t with
  | FSTree.node dirs files =>
    simp only [walkDir] at h
    rcases List.mem_append.mp h with h1 | h2
    · by_cases hc : anyMatchC I (dirChars rp) = true
      · rw [if_pos hc] at h1
        simp at h1
      · rw [if_neg hc] at h1
        rcases mem_classifyEntries_inc h1 with ⟨n, _, _, hp, hfacts⟩
        exact ⟨[], n, by simpa using hp, hfacts⟩
    · exact mem_walkDirs_inc dirs rp p h2
theorem mem_walkDirs_inc {E : List String} {I X : List CompiledRule}
    (ds : List (String × FSTree)) (rp p : List String)
    (h : p ∈ (walkDirs E I X ds rp).1) :
    ∃ q n, p = rp ++ q ++ [n] ∧
      anyMatchC I (pathChars p) = false ∧ anyMatchC X (pathChars p) = false ∧
      pathSuffix n ∈ E := by
  match ds with
  | [] => simp [walkDirs] at h
  | (nm, child) :: rest =>
    simp only [walkDirs] at h
    rcases List.mem_append.mp h with h1 | h2
    · rcases mem_walkDir_inc child (rp ++ [nm]) p h1 with ⟨q, n, hp, hfacts⟩
      refine ⟨nm :: q, n, ?_, hfacts⟩
      rw [hp]
      simp
    · exact mem_walkDirs_inc rest rp p h2
end

mutual
theorem mem_walkDir_exc {E : List String} {I X : List CompiledRule}
    (t : FSTree) (rp p : List String) (h : p ∈ (walkDir E I X t rp).2) :
    ∃ q n, p = rp ++ q ++ [n] ∧
      anyMatchC I (pathChars p) = false ∧
      (anyMatchC X (pathChars p) = true ∨
        (anyMatchC X (pathChars p) = false ∧ pathSuffix n ∉ E)) := by
  match t with
  | FSTree.node dirs files =>
    simp only [walkDir] at h
    rcases List.mem_append.mp h with h1 | h2
    · by_cases hc : anyMatchC I (dirChars rp) = true
      · rw [if_pos hc] at h1
        simp at h1
      · rw [if_neg hc] at h1
        rcases mem_classifyEntries_exc h1 with ⟨n, _, _, hp, hfacts⟩
        exact ⟨[], n, by simpa using hp, hfacts⟩
    · exact mem_walkDirs_exc dirs rp p h2
theorem mem_walkDirs_exc {E : List String} {I X : List CompiledRule}
    (ds : List (String × FSTree)) (rp p : List String)
    (h : p ∈ (walkDirs E I X ds rp).2) :
    ∃ q n, p = rp ++ q ++ [n] ∧
      anyMatchC I (pathChars p) = false ∧
      (anyMatchC X (pathChars p) = true ∨
        (anyMatchC X (pathChars p) = false ∧ pathSuffix n ∉ E)) := by
  match ds with
  | [] => simp [walkDirs] at h
  | (nm, child) :: rest =>
    simp only [walkDirs] at h
    rcases List.mem_append.mp h with h1 | h2
    · rcases mem_walkDir_exc child (rp ++ [nm]) p h1 with ⟨q, n, hp, hfacts⟩
      refine ⟨nm :: q, n, ?_, hfacts⟩
      rw [hp]
      simp
    · exact mem_walkDirs_exc rest rp p h2
end

mutual
theorem mem_walkDir_shape {E : List String} {I X : List CompiledRule}
    (t : FSTree) (rp p : List String)
    (h : p ∈ (walkDir E I X t rp).1 ++ (walkDir E I X t rp).2) :
    ∃ q, q ≠ [] ∧ p = rp ++ q := by
  match t with
  | FSTree.node dirs files =>
    simp only [walkDir] at h
    rcases List.mem_append.mp h with h1 | h2
    · rcases List.mem_append.mp h1 with hh | hr
      · by_cases hc : anyMatchC I (dirChars rp) = true
        · rw [if_pos hc] at hh
          simp at hh
        · rw [if_neg hc] at hh
          rcases mem_classifyEntries_inc hh with ⟨n, _, _, hp, _⟩
          exact ⟨[n], by simp, hp⟩
      · rcases mem_walkDirs_shape dirs rp p (List.mem_append_left _ hr) with hq
        exact hq
    · rcases List.mem_append.mp h2 with hh | hr
      · by_cases hc : anyMatchC I (dirChars rp) = true
        · rw [if_pos hc] at hh
          simp at hh
        · rw [if_neg hc] at hh
          rcases mem_classifyEntries_exc hh with ⟨n, _, _, hp, _⟩
          exact ⟨[n], by simp, hp⟩
      · rcases mem_walkDirs_shape dirs rp p (List.mem_append_right _ hr) with hq
        exact hq
theorem mem_walkDirs_shape {E : List String} {I X : List CompiledRule}
    (ds : List (String × FSTree)) (rp p : List String)
    (h : p ∈ (walkDirs E I X ds rp).1 ++ (walkDirs E I X ds rp).2) :
    ∃ q, q ≠ [] ∧ p = rp ++ q := by
  match ds with
  | [] => simp [walkDirs] at h
  | (nm, child) :: rest =>
    simp only [walkDirs] at h
    rcases List.mem_append.mp h with h1 | h2
    · rcases List.mem_append.mp h1 with ha | hb
      · rcases mem_walkDir_shape child (rp ++ [nm]) p (List.mem_append_left _ ha) with
          ⟨q, _, hp⟩
        refine ⟨nm :: q, by simp, ?_⟩
        rw [hp]
        simp
      · exact mem_walkDirs_shape rest rp p (List.mem_append_left _ hb)
    · rcases List.mem_append.mp h2 with ha | hb
      · rcases mem_walkDir_shape child (rp ++ [nm]) p (List.mem_append_right _ ha) with
          ⟨q, _, hp⟩
        refine ⟨nm :: q, by simp, ?_⟩
        rw [hp]
        simp
      · exact mem_walkDirs_shape rest rp p (List.mem_append_right _ hb)
end

/-- Splitting membership in the walk of a subdirectory list along its head:
everything comes from some child's walk. -/
theorem mem_walkDirs_child {E : List String} {I X : List CompiledRule}
    {ds : List (String × FSTree)} {rp p : List String}
    (h : p ∈ (walkDirs E I X ds rp).1 ++ (walkDirs E I X ds rp).2) :
    ∃ nm child, (nm, child) ∈ ds ∧
      p ∈ (walkDir E I X child (rp ++ [nm])).1 ++ (walkDir E I X child (rp ++ [nm])).2 := by
  induction ds with
  | nil => simp [walkDirs] at h
  | cons hd rest ih =>
    rcases hd with ⟨nm, child⟩
    simp only [walkDirs] at h
    rcases List.mem_append.mp h with h1 | h2
    · rcases List.mem_append.mp h1 with ha | hb
      · exact ⟨nm, child, List.mem_cons_self _ _, List.mem_append_left _ ha⟩
      · rcases ih (List.mem_append_left _ hb) with ⟨m, c, hmem, hp⟩
        exact ⟨m, c, List.mem_cons_of_mem _ hmem, hp⟩
    · rcases List.mem_append.mp h2 with ha | hb
      · exact ⟨nm, child, List.mem_cons_self _ _, List.mem_append_right _ ha⟩
      · rcases ih (List.mem_append_right _ hb) with ⟨m, c, hmem, hp⟩
        exact ⟨m, c, List.mem_cons_of_mem _ hmem, hp⟩

theorem perm_append_swap {α : Type} (w x y z : List α) :
    List.Perm ((w ++ x) ++ (y ++ z)) ((w ++ y) ++ (x ++ z)) := by
  simp only [List.append_assoc]
  exact (List.perm_append_left_iff w).mpr (List.perm_append_comm_assoc x y z)

mutual
theorem walkDir_nodup {E : List String} {I X : List CompiledRule}
    (t : FSTree) (rp : List String) (hwf : fswf t = true) :
    ((walkDir E I X t rp).1 ++ (walkDir E I X t rp).2).Nodup := by
  match t with
  | FSTree.node dirs files =>
    rw [fswf] at hwf
    rcases Bool.and_eq_true_iff.mp hwf with ⟨hnd, hdirs⟩
    have hnames : (dirs.map Prod.fst ++ files).Nodup := of_decide_eq_true hnd
    have hmapnd : (dirs.map Prod.fst).Nodup := (List.nodup_append.mp hnames).1
    have hrest := walkDirs_nodup (E := E) (I := I) (X := X) dirs rp hdirs hmapnd
    by_cases hc : anyMatchC I (dirChars rp) = true
    · simp only [walkDir, if_pos hc]
      simpa using hrest
    · simp only [walkDir, if_neg hc]
      refine (perm_append_swap _ _ _ _).nodup_iff.mpr ?_
      have hsortnd : (sortNames (dirs.map Prod.fst ++ files)).Nodup :=
        (sortNames_perm _).nodup_iff.mpr hnames
      refine List.nodup_append.mpr ⟨classifyEntries_nodup hsortnd, hrest, ?_⟩
      intro x hx1 hx2
      have hx1' : ∃ n : String, x = rp ++ [n] := by
        rcases List.mem_append.mp hx1 with hh | hh
        · rcases mem_classifyEntries_inc hh with ⟨n, _, _, hp, _⟩
          exact ⟨n, hp⟩
        · rcases mem_classifyEntries_exc hh with ⟨n, _, _, hp, _⟩
          exact ⟨n, hp⟩
      rcases hx1' with ⟨n, hxn⟩
      rcases mem_walkDirs_child hx2 with ⟨nm, child, _, hxc⟩
      rcases mem_walkDir_shape child (rp ++ [nm]) x hxc with ⟨q, hq, hxq⟩
      rw [hxn] at hxq
      have hlen : (rp ++ [n]).length = ((rp ++ [nm]) ++ q).length := by rw [hxq]
      have hqpos : 0 < q.length := List.length_pos.mpr hq
      simp only [List.length_append, List.length_cons, List.length_nil] at hlen
      omega
theorem walkDirs_nodup {E : List String} {I X : List CompiledRule}
    (ds : List (String × FSTree)) (rp : List String) (hwf : fswfDirs ds = true)
    (hnames : (ds.map Prod.fst).Nodup) :
    ((walkDirs E I X ds rp).1 ++ (walkDirs E I X ds rp).2).Nodup := by
  match ds with
  | [] => simp [walkDirs]
  | (nm, child) :: rest =>
    rw [fswfDirs] at hwf
    rcases Bool.and_eq_true_iff.mp hwf with ⟨hchild, hrest⟩
    simp only [List.map_cons] at hnames
    rcases List.nodup_cons.mp hnames with ⟨hnm, hrestnames⟩
    simp only [walkDirs]
    refine (perm_append_swap _ _ _ _).nodup_iff.mpr ?_
    refine List.nodup_append.mpr
      ⟨walkDir_nodup child (rp ++ [nm]) hchild,
       walkDirs_nodup rest rp hrest hrestnames, ?_⟩
    intro x hx1 hx2
    rcases mem_walkDir_shape child (rp ++ [nm]) x hx1 with ⟨q, _, hxq⟩
    rcases mem_walkDirs_child hx2 with ⟨m, c, hmem, hxc⟩
    rcases mem_walkDir_shape c (rp ++ [m]) x hxc with ⟨q2, _, hxq2⟩
    rw [hxq] at hxq2
    have : nm :: q = m :: q2 := by
      have h2 : rp ++ nm :: q = rp ++ m :: q2 := by simpa using hxq2
      exact List.append_cancel_left h2
    have hnmm : nm = m := by injection this
    exact hnm (hnmm ▸ List.mem_map_of_mem Prod.fst hmem)
end

theorem walkDirs_sub_inc {E : List String} {I X : List CompiledRule}
    {ds : List (String × FSTree)} {rp : List String} {nm : String} {child : FSTree}
    (hmem : (nm, child) ∈ ds) {x : List String}
    (hx : x ∈ (walkDir E I X child (rp ++ [nm])).1) :
    x ∈ (walkDirs E I X ds rp).1 := by
  induction ds with
  | nil => cases hmem
  | cons hd rest ih =>
    rcases hd with ⟨m, c⟩
    simp only [walkDirs]
    rcases List.mem_cons.mp hmem with he | hm
    · rw [Prod.mk.injEq] at he
      rcases he with ⟨he1, he2⟩
      subst he1
      subst he2
      exact List.mem_append_left _ hx
    · exact List.mem_append_right _ (ih hm)

theorem walkDirs_sub_exc {E : List String} {I X : List CompiledRule}
    {ds : List (String × FSTree)} {rp : List String} {nm : String} {child : FSTree}
    (hmem : (nm, child) ∈ ds) {x : List String}
    (hx : x ∈ (walkDir E I X child (rp ++ [nm])).2) :
    x ∈ (walkDirs E I X ds rp).2 := by
  induction ds with
  | nil => cases hmem
  | cons hd rest ih =>
    rcases hd with ⟨m, c⟩
    simp only [walkDirs]
    rcases List.mem_cons.mp hmem with he | hm
    · rw [Prod.mk.injEq] at he
      rcases he with ⟨he1, he2⟩
      subst he1
      subst he2
      exact List.mem_append_left _ hx
    · exact List.mem_append_right _ (ih hm)

theorem walkDir_mem_inc {E : List String} {I X : List CompiledRule}
    {q : List String} {t : FSTree} {rp : List String} {n : String}
    {dirs : List (String × FSTree)} {files : List String}
    (hfind : findNode t q = some (FSTree.node dirs files)) (hn : n ∈ files)
    (hdir : anyMatchC I (dirChars (rp ++ q)) = false)
    (hI : anyMatchC I (pathChars (rp ++ q ++ [n])) = false)
    (hX : anyMatchC X (pathChars (rp ++ q ++ [n])) = false)
    (hE : pathSuffix n ∈ E) :
    rp ++ q ++ [n] ∈ (walkDir E I X t rp).1 := by
  induction q generalizing t rp with
  | nil =>
    rw [findNode] at hfind
    injection hfind with ht
    subst ht
    simp only [List.append_nil] at hdir hI hX ⊢
    simp only [walkDir]
    refine List.mem_append_left _ ?_
    rw [if_neg (by rw [hdir]; exact Bool.false_ne_true)]
    have hns : n ∈ sortNames (dirs.map Prod.fst ++ files) :=
      (sortNames_perm _).mem_iff.mpr (List.mem_append_right _ hn)
    exact classifyEntries_mem_inc hns hn hI hX hE
  | cons c q ih =>
    cases t with
    | node tds tfs =>
      rw [findNode] at hfind
      cases hl : lookupDir c tds with
      | none => rw [hl] at hfind; cases hfind
      | some child =>
        rw [hl] at hfind
        have hmem : (c, child) ∈ tds := lookupDir_mem hl
        have hre : rp ++ (c :: q) = (rp ++ [c]) ++ q := by simp
        rw [hre] at hdir hI hX ⊢
        have hsub := ih hfind hdir hI hX
        simp only [walkDir]
        exact List.mem_append_right _ (walkDirs_sub_inc hmem hsub)

theorem walkDir_mem_exc {E : List String} {I X : List CompiledRule}
    {q : List String} {t : FSTree} {rp : List String} {n : String}
    {dirs : List (String × FSTree)} {files : List String}
    (hfind : findNode t q = some (FSTree.node dirs files)) (hn : n ∈ files)
    (hdir : anyMatchC I (dirChars (rp ++ q)) = false)
    (hI : anyMatchC I (pathChars (rp ++ q ++ [n])) = false)
    (hcl : anyMatchC X (pathChars (rp ++ q ++ [n])) = true ∨
      (anyMatchC X (pathChars (rp ++ q ++ [n])) = false ∧ pathSuffix n ∉ E)) :
    rp ++ q ++ [n] ∈ (walkDir E I X t rp).2 := by
  induction q generalizing t rp with
  | nil =>
    rw [findNode] at hfind
    injection hfind with ht
    subst ht
    simp only [List.append_nil] at hdir hI hcl ⊢
    simp only [walkDir]
    refine List.mem_append_left _ ?_
    rw [if_neg (by rw [hdir]; exact Bool.false_ne_true)]
    have hns : n ∈ sortNames (dirs.map Prod.fst ++ files) :=
      (sortNames_perm _).mem_iff.mpr (List.mem_append_right _ hn)
    exact classifyEntries_mem_exc hns hn hI hcl
  | cons c q ih =>
    cases t with
    | node tds tfs =>
      rw [findNode] at hfind
      cases hl : lookupDir c tds with
      | none => rw [hl] at hfind; cases hfind
      | some child =>
        rw [hl] at hfind
        have hmem : (c, child) ∈ tds := lookupDir_mem hl
        have hre : rp ++ (c :: q) = (rp ++ [c]) ++ q := by simp
        rw [hre] at hdir hI hcl ⊢
        have hsub := ih hfind hdir hI hcl
        simp only [walkDir]
        exact List.mem_append_right _ (walkDirs_sub_exc hmem hsub)

/-! ### Bridging the walk and `discover_files` -/

theorem mem_discover_inc {t : FSTree} {E : List String} {I X : List CompiledRule}
    {p : List String} :
    p ∈ (discover_files t E I X).1 ↔ p ∈ (walkDir E I X t []).1 := by
  simp only [discover_files]
  exact (sortPaths_perm _).mem_iff

theorem mem_discover_exc {t : FSTree} {E : List String} {I X : List CompiledRule}
    {p : List String} :
    p ∈ (discover_files t E I X).2 ↔ p ∈ (walkDir E I X t []).2 := by
  simp only [discover_files]
  exact (sortPaths_perm _).mem_iff

/-! ### The claims about `discover_files` -/

/-- C1: classification of every non-pruned file entry follows the fixed
precedence ignore → excludedContent → ending-set → excludedContent-default.
The entry lives at directory path `q` with name `n`; "non-pruned" is
formalised as the walk string of its parent directory (`"."` for the root) not
matching the ignore set, which is exactly the `continue` guard of the walker.
Each of the four branches states where the path does and does not appear, and
the third branch is the claim's "in particular" sentence: a file whose suffix
is wanted and which matches no ignore or exclude rule lands in `included`. -/
theorem discover_files_classification
    (t : FSTree) (E : List String) (I X : List CompiledRule)
    (q : List String) (n : String) (dirs : List (String × FSTree))
    (files : List String)
    (hfind : findNode t q = some (FSTree.node dirs files)) (hn : n ∈ files)
    (hdir : anyMatchC I (dirChars q) = false) :
    (anyMatchC I (pathChars (q ++ [n])) = true →
      q ++ [n] ∉ (discover_files t E I X).1 ∧
      q ++ [n] ∉ (discover_files t E I X).2) ∧
    (anyMatchC I (pathChars (q ++ [n])) = false →
      anyMatchC X (pathChars (q ++ [n])) = true →
      q ++ [n] ∈ (discover_files t E I X).2 ∧
      q ++ [n] ∉ (discover_files t E I X).1) ∧
    (anyMatchC I (pathChars (q ++ [n])) = false →
      anyMatchC X (pathChars (q ++ [n])) = false → pathSuffix n ∈ E →
      q ++ [n] ∈ (discover_files t E I X).1 ∧
      q ++ [n] ∉ (discover_files t E I X).2) ∧
    (anyMatchC I (pathChars (q ++ [n])) = false →
      anyMatchC X (pathChars (q ++ [n])) = false → pathSuffix n ∉ E →
      q ++ [n] ∈ (discover_files t E I X).2 ∧
      q ++ [n] ∉ (discover_files t E I X).1) := by
  have hlast : ∀ (q' : List String) (n' : String),
      q ++ [n] = q' ++ [n'] → n = n' := by
    intro q' n' he
    have h1 : (q ++ [n]).getLast? = some n := List.getLast?_concat q
    have h2 : (q' ++ [n']).getLast? = some n' := List.getLast?_concat q'
    rw [he, h2] at h1
    injection h1 with h1
    exact h1.symm
  have hdir0 : anyMatchC I (dirChars ([] ++ q)) = false := by
    simpa using hdir
  refine ⟨?_, ?_, ?_, ?_⟩
  · intro hI
    constructor
    · intro hmem
      rcases mem_walkDir_inc t [] _ (mem_discover_inc.mp hmem) with
        ⟨q', n', _, hI', _⟩
      rw [hI] at hI'
      cases hI'
    · intro hmem
      rcases mem_walkDir_exc t [] _ (mem_discover_exc.mp hmem) with
        ⟨q', n', _, hI', _⟩
      rw [hI] at hI'
      cases hI'
  · intro hI hX
    constructor
    · refine mem_discover_exc.mpr ?_
      have h := walkDir_mem_exc (E := E) (I := I) (X := X)
        hfind hn hdir0 (by simpa using hI) (Or.inl (by simpa using hX))
      simpa using h
    · intro hmem
      rcases mem_walkDir_inc t [] _ (mem_discover_inc.mp hmem) with
        ⟨q', n', _, _, hX', _⟩
      rw [hX] at hX'
      cases hX'
  · intro hI hX hE
    constructor
    · refine mem_discover_inc.mpr ?_
      have h := walkDir_mem_inc (E := E) (I := I) (X := X)
        hfind hn hdir0 (by simpa using hI) (by simpa using hX) hE
      simpa using h
    · intro hmem
      rcases mem_walkDir_exc t [] _ (mem_discover_exc.mp hmem) with
        ⟨q', n', hp, _, hcl⟩
      have hn' : n = n' := hlast q' n' (by simpa using hp)
      rcases hcl with hX' | ⟨_, hE'⟩
      · rw [hX] at hX'
        cases hX'
      · exact hE' (hn' ▸ hE)
  · intro hI hX hE
    constructor
    · refine mem_discover_exc.mpr ?_
      have h := walkDir_mem_exc (E := E) (I := I) (X := X)
        hfind hn hdir0 (by simpa using hI)
        (Or.inr ⟨by simpa using hX, hE⟩)
      simpa using h
    · intro hmem
      rcases mem_walkDir_inc t [] _ (mem_discover_inc.mp hmem) with
        ⟨q', n', hp, _, _, hE'⟩
      have hn' : n = n' := hlast q' n' (by simpa using hp)
      exact hE (hn' ▸ hE')

/-- C1 witness: in the tree `src/{a.py, b.txt}` with ending set `{.py}` and
empty rule sets, the file entry `src/a.py` satisfies branch three of
`discover_files_classification` and lands in `included` only. -/
theorem discover_files_classification_witness :
    (findNode (FSTree.node [("src", FSTree.node [] ["a.py", "b.txt"])] [])
        ["src"] = some (FSTree.node [] ["a.py", "b.txt"]) ∧
      "a.py" ∈ ["a.py", "b.txt"] ∧ pathSuffix "a.py" ∈ [".py"]) ∧
    (["src", "a.py"] ∈ (discover_files
        (FSTree.node [("src", FSTree.node [] ["a.py", "b.txt"])] [])
        [".py"] [] []).1 ∧
      ["src", "a.py"] ∉ (discover_files
        (FSTree.node [("src", FSTree.node [] ["a.py", "b.txt"])] [])
        [".py"] [] []).2) := by
  refine ⟨⟨rfl, by decide, by decide⟩, ?_⟩
  have h := (discover_files_classification
    (FSTree.node [("src", FSTree.node [] ["a.py", "b.txt"])] [])
    [".py"] [] [] ["src"] "a.py" [] ["a.py", "b.txt"]
    rfl (by decide) rfl).2.2.1 rfl rfl (by decide)
  simpa using h

/-- C2: a path one of whose strict ancestors matches an ignore rule appears in
neither output list of `discover_files`: the ancestor match extends to the
whole path by the `(/.*)?$` suffix, and the walker never emits an
ignore-matched path. -/
theorem discover_files_prunes_subtrees
    (t : FSTree) (E : List String) (I X : List CompiledRule)
    (P : List String) (k : Nat) (hk0 : 0 < k) (hklen : k < P.length)
    (hmatch : anyMatchC I (pathChars (P.take k)) = true) :
    P ∉ (discover_files t E I X).1 ∧ P ∉ (discover_files t E I X).2 := by
  have htake : P.take k ≠ [] := by
    intro he
    have := congrArg List.length he
    simp only [List.length_take, List.length_nil] at this
    omega
  have hdrop : P.drop k ≠ [] := by
    intro he
    have := congrArg List.length he
    simp only [List.length_drop, List.length_nil] at this
    omega
  have hsplit : pathChars P = pathChars (P.take k) ++ '/' :: pathChars (P.drop k) := by
    conv_lhs => rw [(List.take_append_drop k P).symm]
    exact pathChars_append _ _ htake hdrop
  have hP : anyMatchC I (pathChars P) = true := by
    rw [hsplit]
    exact anyMatchC_append_slash _ _ _ hmatch
  constructor
  · intro hmem
    rcases mem_walkDir_inc t [] _ (mem_discover_inc.mp hmem) with
      ⟨q', n', _, hI', _⟩
    rw [hP] at hI'
    cases hI'
  · intro hmem
    rcases mem_walkDir_exc t [] _ (mem_discover_exc.mp hmem) with
      ⟨q', n', _, hI', _⟩
    rw [hP] at hI'
    cases hI'

/-- C2 witness: with ignore rule compiled from `build`, the path
`build/x.py` (whose strict ancestor `build` matches) appears in neither
output list for the tree `build/{x.py}`. -/
theorem discover_files_prunes_subtrees_witness :
    (0 < 1 ∧ 1 < (["build", "x.py"] : List String).length ∧
      anyMatchC [someRule "build"]
        (pathChars ((["build", "x.py"] : List String).take 1)) = true) ∧
    (["build", "x.py"] ∉ (discover_files
        (FSTree.node [("build", FSTree.node [] ["x.py"])] [])
        [".py"] [someRule "build"] []).1 ∧
      ["build", "x.py"] ∉ (discover_files
        (FSTree.node [("build", FSTree.node [] ["x.py"])] [])
        [".py"] [someRule "build"] []).2) := by
  have hv : someRule "build" =
      CompiledRule.mk false
        [Tok.lit 'b', Tok.lit 'u', Tok.lit 'i', Tok.lit 'l', Tok.lit 'd'] := rfl
  have hm : anyMatchC [someRule "build"]
      (pathChars ((["build", "x.py"] : List String).take 1)) = true := by
    rw [hv]
    simp only [List.take, pathChars, anyMatchC, List.any_cons, List.any_nil,
      ruleMatchesC]
    simp [matchHere]
  refine ⟨⟨Nat.one_pos, by decide, hm⟩, ?_⟩
  exact discover_files_prunes_subtrees
    (FSTree.node [("build", FSTree.node [] ["x.py"])] [])
    [".py"] [someRule "build"] [] ["build", "x.py"] 1 Nat.one_pos (by decide) hm

theorem pairwise_ltB_of_sorted_nodup {l : List (List String)}
    (hs : List.Sorted PathLe l) (hn : l.Nodup) :
    List.Pairwise (fun a b => pathLtB a b = true) l :=
  (List.Pairwise.and hs hn).imp fun h => pathLtB_of_le_ne h.1 h.2

/-- C3 amended: for a well-formed tree (distinct sibling names, as on a real
file system) both returned lists, and their union `sorted(included +
excluded)` as formed by `main`, are strictly increasing — but in the
componentwise (path-parts) lexicographic order, which is what Python's
`sorted` uses on `Path` objects, not in the raw-string order the claim
states (see the counterexample).  Sorting at the end makes this hold
regardless of the OS listing order recorded in the tree. -/
theorem discover_files_sorted
    (t : FSTree) (E : List String) (I X : List CompiledRule)
    (hwf : fswf t = true) :
    List.Pairwise (fun a b => pathLtB a b = true) (discover_files t E I X).1 ∧
    List.Pairwise (fun a b => pathLtB a b = true) (discover_files t E I X).2 ∧
    List.Pairwise (fun a b => pathLtB a b = true)
      (all_tree_paths (discover_files t E I X).1 (discover_files t E I X).2) := by
  have hnd := walkDir_nodup (E := E) (I := I) (X := X) t [] hwf
  rcases List.nodup_append.mp hnd with ⟨hnd1, hnd2, hdisj⟩
  have hinc : (discover_files t E I X).1 = sortPaths (walkDir E I X t []).1 := rfl
  have hexc : (discover_files t E I X).2 = sortPaths (walkDir E I X t []).2 := rfl
  refine ⟨?_, ?_, ?_⟩
  · rw [hinc]
    exact pairwise_ltB_of_sorted_nodup (sortPaths_sorted _)
      ((sortPaths_perm _).nodup_iff.mpr hnd1)
  · rw [hexc]
    exact pairwise_ltB_of_sorted_nodup (sortPaths_sorted _)
      ((sortPaths_perm _).nodup_iff.mpr hnd2)
  · have hperm : List.Perm ((discover_files t E I X).1 ++ (discover_files t E I X).2)
        ((walkDir E I X t []).1 ++ (walkDir E I X t []).2) := by
      rw [hinc, hexc]
      exact (sortPaths_perm _).append (sortPaths_perm _)
    have hndu : ((discover_files t E I X).1 ++ (discover_files t E I X).2).Nodup :=
      hperm.nodup_iff.mpr hnd
    rw [all_tree_paths]
    exact pairwise_ltB_of_sorted_nodup (sortPaths_sorted _)
      ((sortPaths_perm _).nodup_iff.mpr hndu)

/-- C3 witness: a concrete well-formed tree for `discover_files_sorted`. -/
theorem discover_files_sorted_witness :
    fswf (FSTree.node [("a", FSTree.node [] ["c.py"]),
        ("a.b", FSTree.node [] ["c.py"])] []) = true ∧
    List.Pairwise (fun a b => pathLtB a b = true)
      (discover_files (FSTree.node [("a", FSTree.node [] ["c.py"]),
        ("a.b", FSTree.node [] ["c.py"])] []) [".py"] [] []).1 :=
  ⟨rfl, (discover_files_sorted
    (FSTree.node [("a", FSTree.node [] ["c.py"]),
      ("a.b", FSTree.node [] ["c.py"])] []) [".py"] [] [] rfl).1⟩

/-- C3 counterexample: with sibling directories `a` and `a.b` each holding
`c.py`, `discover_files` returns included = `[a/c.py, a.b/c.py]` (the
path-parts order of Python's `sorted` on `Path` objects), and that list is
NOT in lexicographic order of the relative path strings: as strings,
`"a.b/c.py" < "a/c.py"` because `.` (0x2E) sorts before `/` (0x2F). -/
theorem discover_files_string_order_counterexample :
    (discover_files
        (FSTree.node [("a", FSTree.node [] ["c.py"]),
          ("a.b", FSTree.node [] ["c.py"])] []) [".py"] [] []).1 =
      [["a", "c.py"], ["a.b", "c.py"]] ∧
    ¬ List.Pairwise (fun p q => strLtB (pathChars p) (pathChars q) = true)
        (discover_files
          (FSTree.node [("a", FSTree.node [] ["c.py"]),
            ("a.b", FSTree.node [] ["c.py"])] []) [".py"] [] []).1 := by
  constructor
  · rfl
  · intro hpw
    have he : (discover_files
        (FSTree.node [("a", FSTree.node [] ["c.py"]),
          ("a.b", FSTree.node [] ["c.py"])] []) [".py"] [] []).1 =
        [["a", "c.py"], ["a.b", "c.py"]] := rfl
    rw [he] at hpw
    rcases List.pairwise_cons.mp hpw with ⟨hrel, _⟩
    have h1 := hrel ["a.b", "c.py"] (List.mem_cons_self _ _)
    have h2 : strLtB (pathChars ["a", "c.py"]) (pathChars ["a.b", "c.py"]) = false := by
      decide
    rw [h1] at h2
    cases h2

/-- C10: rules read from `.gitignore` are added by `main` to the
exclude-content set, not to the ignore set; so a file entry matched by a
gitignore rule but by no ignore rule is classified `excludedContent`, is
absent from `included`, and stays visible in the tree path list
`sorted(included + excluded)` rather than being pruned.  ("Matched by no
ignore rule" is taken for the entry and for the walk string of its parent
directory, the walker's pruning guard.) -/
theorem gitignore_rules_exclude_content
    (ignore_items exclude_items gitignore_lines : List String)
    (t : FSTree) (E : List String) (q : List String) (n : String)
    (dirs : List (String × FSTree)) (files : List String)
    (hfind : findNode t q = some (FSTree.node dirs files)) (hn : n ∈ files)
    (r : CompiledRule) (hr : r ∈ parse_gitignore gitignore_lines)
    (hm : ruleMatchesC r (pathChars (q ++ [n])) = true)
    (hign : anyMatchC (someRules (main_ignore_patterns ignore_items))
      (pathChars (q ++ [n])) = false)
    (hdir : anyMatchC (someRules (main_ignore_patterns ignore_items))
      (dirChars q) = false) :
    q ++ [n] ∈ (discover_files t E (someRules (main_ignore_patterns ignore_items))
      (someRules (main_exclude_patterns exclude_items gitignore_lines false))).2 ∧
    q ++ [n] ∉ (discover_files t E (someRules (main_ignore_patterns ignore_items))
      (someRules (main_exclude_patterns exclude_items gitignore_lines false))).1 ∧
    q ++ [n] ∈ all_tree_paths
      (discover_files t E (someRules (main_ignore_patterns ignore_items))
        (someRules (main_exclude_patterns exclude_items gitignore_lines false))).1
      (discover_files t E (someRules (main_ignore_patterns ignore_items))
        (someRules (main_exclude_patterns exclude_items gitignore_lines false))).2 := by
  have hrX : r ∈ someRules (main_exclude_patterns exclude_items gitignore_lines false) := by
    rw [someRules, main_exclude_patterns]
    refine List.mem_filterMap.mpr ⟨some r, ?_, rfl⟩
    refine List.mem_append_right _ ?_
    rw [if_neg (by simp)]
    exact List.mem_map_of_mem some hr
  have hX : anyMatchC (someRules (main_exclude_patterns exclude_items gitignore_lines false))
      (pathChars (q ++ [n])) = true := by
    rw [anyMatchC, List.any_eq_true]
    exact ⟨r, hrX, hm⟩
  have hdir0 : anyMatchC (someRules (main_ignore_patterns ignore_items))
      (dirChars ([] ++ q)) = false := by
    simpa using hdir
  have hin2 : q ++ [n] ∈ (discover_files t E
      (someRules (main_ignore_patterns ignore_items))
      (someRules (main_exclude_patterns exclude_items gitignore_lines false))).2 := by
    refine mem_discover_exc.mpr ?_
    have h := walkDir_mem_exc (E := E)
      (I := someRules (main_ignore_patterns ignore_items))
      (X := someRules (main_exclude_patterns exclude_items gitignore_lines false))
      hfind hn hdir0 (by simpa using hign) (Or.inl (by simpa using hX))
    simpa using h
  have hnotin1 : q ++ [n] ∉ (discover_files t E
      (someRules (main_ignore_patterns ignore_items))
      (someRules (main_exclude_patterns exclude_items gitignore_lines false))).1 := by
    intro hmem
    rcases mem_walkDir_inc t [] _ (mem_discover_inc.mp hmem) with
      ⟨q', n', _, _, hX', _⟩
    rw [hX] at hX'
    cases hX'
  refine ⟨hin2, hnotin1, ?_⟩
  rw [all_tree_paths]
  refine (sortPaths_perm _).mem_iff.mpr ?_
  exact List.mem_append_right _ hin2

/-- C10 witness: a root-level file `secret.txt` listed in `.gitignore`
(lines `["secret.txt\n"]`), with empty CLI ignore and exclude items, is
classified excludedContent and stays visible in the tree path list. -/
theorem gitignore_rules_exclude_content_witness :
    (someRule "secret.txt" ∈ parse_gitignore ["secret.txt\n"] ∧
      ruleMatchesC (someRule "secret.txt")
        (pathChars (([] : List String) ++ ["secret.txt"])) = true) ∧
    (([] : List String) ++ ["secret.txt"] ∈ (discover_files
        (FSTree.node [] ["secret.txt", "a.py"]) [".py"]
        (someRules (main_ignore_patterns []))
        (someRules (main_exclude_patterns [] ["secret.txt\n"] false))).2 ∧
      ([] : List String) ++ ["secret.txt"] ∉ (discover_files
        (FSTree.node [] ["secret.txt", "a.py"]) [".py"]
        (someRules (main_ignore_patterns []))
        (someRules (main_exclude_patterns [] ["secret.txt\n"] false))).1) := by
  have hv : someRule "secret.txt" =
      CompiledRule.mk false
        [Tok.lit 's', Tok.lit 'e', Tok.lit 'c', Tok.lit 'r', Tok.lit 'e',
         Tok.lit 't', Tok.lit '.', Tok.lit 't', Tok.lit 'x', Tok.lit 't'] := rfl
  have hm : ruleMatchesC (someRule "secret.txt")
      (pathChars (([] : List String) ++ ["secret.txt"])) = true := by
    rw [hv]
    simp only [List.nil_append, pathChars, ruleMatchesC]
    simp [matchHere]
  have hr : someRule "secret.txt" ∈ parse_gitignore ["secret.txt\n"] := by
    rw [show parse_gitignore ["secret.txt\n"] = [someRule "secret.txt"] from rfl]
    exact List.mem_singleton.mpr rfl
  refine ⟨⟨hr, hm⟩, ?_⟩
  have h := gitignore_rules_exclude_content [] [] ["secret.txt\n"]
    (FSTree.node [] ["secret.txt", "a.py"]) [".py"] [] "secret.txt"
    [] ["secret.txt", "a.py"] rfl (by decide)
    (someRule "secret.txt") hr hm rfl rfl
  exact ⟨h.1, h.2.1⟩

/-! ### The content renderer claim (C4) -/

theorem dumpLoop_empty_on_blank (read_text : String → ReadResult)
    (rel_paths : List String) (rel raw : String)
    (hmem : rel ∈ rel_paths) (hread : read_text rel = ReadResult.ok raw)
    (hblank : pyStrip raw = "") :
    ∀ parts, dumpLoop read_text parts rel_paths = "" := by
  induction rel_paths with
  | nil => cases hmem
  | cons hd rest ih =>
    intro parts
    rcases List.mem_cons.mp hmem with he | hm
    · subst he
      rw [dumpLoop, hread]
      simp only [hblank]
      rfl
    · rw [dumpLoop]
      cases hrd : read_text hd with
      | ok c =>
        simp only []
        by_cases hc : pyStrip c = ""
        · rw [if_pos (by rw [hc]; rfl)]
        · rw [if_neg (by simp [hc])]
          exact ih hm _
      | err e => exact ih hm _

/-- C4: if any listed file reads successfully but strips to empty content,
`create_file_content_dump` returns the empty string for the whole batch —
no headings and no contents of any file, including those earlier in the
list, survive. -/
theorem content_dump_empty_on_blank_file
    (read_text : String → ReadResult) (rel_paths : List String)
    (rel raw : String)
    (hmem : rel ∈ rel_paths) (hread : read_text rel = ReadResult.ok raw)
    (hblank : pyStrip raw = "") :
    create_file_content_dump read_text rel_paths = "" := by
  rw [create_file_content_dump]
  exact dumpLoop_empty_on_blank read_text rel_paths rel raw hmem hread hblank []

/-- C4 witness: with a reader under which `a.py` strips to empty, the dump of
`[b.py, a.py]` is the empty string although `b.py` has content. -/
theorem content_dump_empty_on_blank_file_witness :
    ("a.py" ∈ ["b.py", "a.py"] ∧
      (fun r => if r == "a.py" then ReadResult.ok "  "
        else ReadResult.ok "print(1)") "a.py" = ReadResult.ok "  " ∧
      pyStrip "  " = "") ∧
    create_file_content_dump
      (fun r => if r == "a.py" then ReadResult.ok "  "
        else ReadResult.ok "print(1)") ["b.py", "a.py"] = "" := by
  refine ⟨⟨by decide, rfl, rfl⟩, ?_⟩
  exact content_dump_empty_on_blank_file _ _ "a.py" "  " (by decide) rfl rfl
